import Mathlib

/-!
# Verification of the linked-list core and auxiliary functions

Shallow embedding of `src/python_prep/reverse_linked_list.py` (the `Node`
class, `traverse`, `rev`), `src/python_prep/flatten_list.py`
(`flatten_list`), and `src/python_prep/practice.py` (`two_sum`).

Python objects live on a heap; we model the heap explicitly as an
association list from addresses (`Nat`) to node records, so that the
in-place pointer mutation performed by `rev` is captured faithfully:
node identity = address, `curr.next = prev` = a store at that address.
The `while` loops are embedded as fuel-indexed recursions; running out of
fuel returns `none`, so termination claims become "enough fuel yields
`some`".
-/

set_option autoImplicit false

namespace PythonPrep

/-- A heap cell, mirroring `class Node`: `self.data` and `self.next`
(`next` is an optional address of the following node; `None` = absence). -/
structure Node where
  data : Int
  next : Option Nat
  deriving Repr, DecidableEq

/-- The Python heap, restricted to `Node` objects: an association list
from addresses to node records. -/
abbrev Heap := List (Nat × Node)

/-- Read the node stored at address `a` (first binding wins). -/
def hget : Heap → Nat → Option Node
  | [], _ => none
  | (b, m) :: t, a => if b = a then some m else hget t a

/-- Overwrite the node stored at address `a` in place.  If `a` is not
allocated, the heap is unchanged (the Python code only ever stores to
addresses it has just read from). -/
def hset : Heap → Nat → Node → Heap
  | [], _, _ => []
  | (b, m) :: t, a, n => if b = a then (a, n) :: t else (b, m) :: hset t a n

/-- The allocated addresses of the heap, i.e. the node identities. -/
def hkeys : Heap → List Nat
  | [] => []
  | (b, _) :: t => b :: hkeys t

/--
`traverse` from `reverse_linked_list.py`:

    def traverse(head):
        curr = head
        while curr is not None:
            print(curr.data)
            curr = curr.next

The heap is threaded through (the body performs no store, so it passes
through unchanged), and the printed payloads are collected into the
returned list.  `fuel` bounds the number of loop iterations; exhausting
it (a cycle) yields `none`.
-/
def traverseAux : Heap → Nat → Option Nat → Option (Heap × List Int)
  | h, _, none => some (h, [])
  | _, 0, some _ => none
  | h, fuel + 1, some a =>
    match hget h a with
    | none => none
    | some n => (traverseAux h fuel n.next).map (fun p => (p.1, n.data :: p.2))

/-- `traverse(head)` with a fuel bound on the loop. -/
def traverse (h : Heap) (head : Option Nat) (fuel : Nat) : Option (Heap × List Int) :=
  traverseAux h fuel head

/--
The loop of `rev` from `reverse_linked_list.py`:

    def rev(head):
        prev = None
        curr = head
        while curr:
            new_head = curr.next
            curr.next = prev      -- the store: hset
            prev = curr
            curr = new_head
        return prev

`revAux h fuel prev curr` runs the loop to completion (at most `fuel`
iterations) and returns the final heap together with the returned `prev`.
-/
def revAux : Heap → Nat → Option Nat → Option Nat → Option (Heap × Option Nat)
  | h, _, prev, none => some (h, prev)
  | _, 0, _, some _ => none
  | h, fuel + 1, prev, some a =>
    match hget h a with
    | none => none
    | some n => revAux (hset h a ⟨n.data, prev⟩) fuel (some a) n.next

/-- `rev(head)` with a fuel bound on the loop. -/
def rev (h : Heap) (head : Option Nat) (fuel : Nat) : Option (Heap × Option Nat) :=
  revAux h fuel none head

/-- Exactly `k` iterations of the body of the `rev` loop, exposing the
intermediate state `(heap, prev, curr)`;  `none` when the loop exits (or
gets stuck on a dangling address) before `k` iterations. -/
def revIter : Heap → Option Nat → Option Nat → Nat → Option (Heap × Option Nat × Option Nat)
  | h, prev, curr, 0 => some (h, prev, curr)
  | h, prev, some a, k + 1 =>
    match hget h a with
    | none => none
    | some n => revIter (hset h a ⟨n.data, prev⟩) (some a) n.next k
  | _, _, none, _ + 1 => none

/-- `Modelled from the spec: Construct(values)` — the repository builds
its example list literally (`head = Node(10); head.next = Node(20); ...`)
and has no general constructor, so this follows the spec's words:
"allocates one Node per value, in sequence order, linking each to the
next; the first allocated Node becomes the head."  Nodes are allocated at
consecutive fresh addresses starting at `base`. -/
def constructAux : Nat → List Int → Heap
  | _, [] => []
  | base, v :: vs =>
    (base, ⟨v, if vs.isEmpty then none else some (base + 1)⟩) :: constructAux (base + 1) vs

/-- `Modelled from the spec: Construct(values)` — returns the heap of
allocated nodes together with the head reference (absent for the empty
sequence). -/
def construct (vals : List Int) : Heap × Option Nat :=
  (constructAux 0 vals, if vals.isEmpty then none else some 0)

/-- The chain starting at `c` in heap `h` consists exactly of the listed
(address, payload) pairs, following `next` links and ending at absence.
Finiteness of the list is the "finite, acyclic" precondition of the spec. -/
inductive Chain (h : Heap) : Option Nat → List (Nat × Int) → Prop
  | nil : Chain h none []
  | cons {a : Nat} {d : Int} {nx : Option Nat} {rest : List (Nat × Int)} :
      hget h a = some ⟨d, nx⟩ → Chain h nx rest → Chain h (some a) ((a, d) :: rest)

/-- The head reference of a chain description. -/
def chainHead (l : List (Nat × Int)) : Option Nat :=
  l.head?.map Prod.fst

@[simp] theorem chainHead_nil : chainHead [] = none := rfl

@[simp] theorem chainHead_cons (p : Nat × Int) (l : List (Nat × Int)) :
    chainHead (p :: l) = some p.1 := rfl

theorem Chain.head_eq {h : Heap} {c : Option Nat} {l : List (Nat × Int)}
    (hc : Chain h c l) : c = chainHead l := by
  cases hc <;> rfl

theorem Chain.head_chain {h : Heap} {c : Option Nat} {l : List (Nat × Int)}
    (hc : Chain h c l) : Chain h (chainHead l) l := by
  rw [← hc.head_eq]
  exact hc

/-! ## Heap lemmas -/

theorem hget_hset_self {h : Heap} {a : Nat} {m : Node} (n : Node)
    (hm : hget h a = some m) : hget (hset h a n) a = some n := by
  induction h with
  | nil => simp [hget] at hm
  | cons p t ih =>
    obtain ⟨b, q⟩ := p
    by_cases hb : b = a
    · subst hb
      simp [hget, hset]
    · simp only [hget, hset, if_neg hb] at hm ⊢
      exact ih hm

theorem hget_hset_ne {h : Heap} {a b : Nat} (n : Node) (hab : a ≠ b) :
    hget (hset h a n) b = hget h b := by
  induction h with
  | nil => simp [hset]
  | cons p t ih =>
    obtain ⟨c, q⟩ := p
    by_cases hc : c = a
    · subst hc
      simp [hget, hset, if_neg hab]
    · simp only [hset, if_neg hc, hget, ih]

theorem hkeys_hset (h : Heap) (a : Nat) (n : Node) :
    hkeys (hset h a n) = hkeys h := by
  induction h with
  | nil => rfl
  | cons p t ih =>
    obtain ⟨c, q⟩ := p
    by_cases hc : c = a
    · subst hc
      simp [hset, hkeys]
    · simp [hset, if_neg hc, hkeys, ih]

theorem hget_cons_ne {h : Heap} {b : Nat} (q : Node) {a : Nat} (hab : b ≠ a) :
    hget ((b, q) :: h) a = hget h a := by
  simp [hget, if_neg hab]

/-! ## Chain lemmas -/

/-- A chain is unaffected by a store at an address outside it. -/
theorem Chain.hset_of_notMem {h : Heap} {c : Option Nat} {l : List (Nat × Int)}
    (hc : Chain h c l) {a : Nat} (ha : a ∉ l.map Prod.fst) (n : Node) :
    Chain (hset h a n) c l := by
  induction hc with
  | nil => exact Chain.nil
  | @cons b d nx rest hb _ ih =>
    simp only [List.map_cons, List.mem_cons, not_or] at ha
    exact Chain.cons (by rw [hget_hset_ne n ha.1]; exact hb) (ih ha.2)

/-- A chain is unaffected by allocating a fresh cell in front of the heap. -/
theorem Chain.cons_heap {h : Heap} {c : Option Nat} {l : List (Nat × Int)}
    (hc : Chain h c l) {b : Nat} (hb : b ∉ l.map Prod.fst) (q : Node) :
    Chain ((b, q) :: h) c l := by
  induction hc with
  | nil => exact Chain.nil
  | @cons a d nx rest ha _ ih =>
    simp only [List.map_cons, List.mem_cons, not_or] at hb
    exact Chain.cons (by rw [hget_cons_ne q hb.1]; exact ha) (ih hb.2)

/-- The chain starting at a given reference is unique. -/
theorem Chain.deterministic {h : Heap} {c : Option Nat} {l₁ l₂ : List (Nat × Int)}
    (h₁ : Chain h c l₁) (h₂ : Chain h c l₂) : l₁ = l₂ := by
  induction h₁ generalizing l₂ with
  | nil => cases h₂; rfl
  | @cons a d nx rest ha _ ih =>
    cases h₂ with
    | cons ha' hrest' =>
      rw [ha] at ha'
      injection ha' with he
      injection he with hd hx
      subst hd
      subst hx
      rw [ih hrest']

/-- Every entry of a chain starts its own chain, a suffix of the whole. -/
theorem Chain.mem_suffix {h : Heap} {c : Option Nat} {l : List (Nat × Int)}
    (hc : Chain h c l) {p : Nat × Int} (hp : p ∈ l) :
    ∃ l₂, (p :: l₂) <:+ l ∧ Chain h (some p.1) (p :: l₂) := by
  induction hc with
  | nil => simp at hp
  | @cons a d nx rest ha hrest ih =>
    rcases List.mem_cons.mp hp with he | hm
    · subst he
      exact ⟨rest, List.suffix_refl _, Chain.cons ha hrest⟩
    · obtain ⟨l₂, hsuf, hch⟩ := ih hm
      exact ⟨l₂, hsuf.trans (List.suffix_cons _ _), hch⟩

/-- Chains are acyclic: no address occurs twice. -/
theorem Chain.nodup {h : Heap} {c : Option Nat} {l : List (Nat × Int)}
    (hc : Chain h c l) : (l.map Prod.fst).Nodup := by
  induction hc with
  | nil => simp
  | @cons a d nx rest ha hrest ih =>
    simp only [List.map_cons, List.nodup_cons]
    refine ⟨fun hmem => ?_, ih⟩
    obtain ⟨e, hme, hfst⟩ := List.mem_map.mp hmem
    obtain ⟨l₂, hsuf, hch⟩ := hrest.mem_suffix hme
    have hall : Chain h (some a) ((a, d) :: rest) := Chain.cons ha hrest
    rw [hfst] at hch
    have heq := hall.deterministic hch
    have hlen : (e :: l₂).length ≤ rest.length := hsuf.length_le
    rw [← heq] at hlen
    simp only [List.length_cons] at hlen
    omega

/-! ## Traversal specification -/

/-- Traversing a chain with fuel at least its length succeeds, leaves the
heap untouched, and emits exactly the chain's payloads in order. -/
theorem traverseAux_spec {h : Heap} {c : Option Nat} {l : List (Nat × Int)}
    (hc : Chain h c l) {fuel : Nat} (hf : l.length ≤ fuel) :
    traverseAux h fuel c = some (h, l.map Prod.snd) := by
  induction hc generalizing fuel with
  | nil => cases fuel <;> rfl
  | @cons a d nx rest ha _ ih =>
    cases fuel with
    | zero => simp at hf
    | succ fuel =>
      have hf' : rest.length ≤ fuel := by
        simp only [List.length_cons] at hf
        omega
      simp [traverseAux, ha, ih hf']

/-! ## Reversal specification -/

/-- The central invariant-preserving lemma for the `rev` loop: if the
chain still to process is `cs` and the chain already built from `prev` is
`ps` (disjoint from `cs`), then the loop terminates within `cs.length`
iterations, returns the head of `cs.reverse ++ ps`, that list is the
chain of the final heap, and the loop changed neither the allocated
addresses nor any payload. -/
theorem revAux_spec (cs : List (Nat × Int)) :
    ∀ (h : Heap) (prev curr : Option Nat) (ps : List (Nat × Int)) (fuel : Nat),
    Chain h curr cs → Chain h prev ps →
    (∀ x ∈ cs.map Prod.fst, x ∉ ps.map Prod.fst) →
    cs.length ≤ fuel →
    ∃ h₂, revAux h fuel prev curr = some (h₂, chainHead (cs.reverse ++ ps)) ∧
      Chain h₂ (chainHead (cs.reverse ++ ps)) (cs.reverse ++ ps) ∧
      hkeys h₂ = hkeys h ∧
      (∀ a, (hget h₂ a).map Node.data = (hget h a).map Node.data) := by
  induction cs with
  | nil =>
    intro h prev curr ps fuel hcs hps _ _
    cases hcs
    refine ⟨h, ?_, ?_, rfl, fun a => rfl⟩
    · simp only [List.reverse_nil, List.nil_append, ← hps.head_eq]
      cases fuel <;> rfl
    · simp only [List.reverse_nil, List.nil_append, ← hps.head_eq]
      exact hps
  | cons p cs ih =>
    intro h prev curr ps fuel hcs hps hdisj hf
    obtain ⟨a, d⟩ := p
    cases hcs with
    | @cons _ _ nx _ ha hcs' =>
      cases fuel with
      | zero => simp at hf
      | succ fuel =>
        have hnodup : a ∉ cs.map Prod.fst := by
          have := (Chain.cons ha hcs').nodup
          simp only [List.map_cons, List.nodup_cons] at this
          exact this.1
        have hanotps : a ∉ ps.map Prod.fst := by
          apply hdisj
          simp
        set h₁ := hset h a ⟨d, prev⟩ with hh₁
        have hcs₁ : Chain h₁ nx cs := hcs'.hset_of_notMem hnodup _
        have hget₁ : hget h₁ a = some ⟨d, prev⟩ := hget_hset_self _ ha
        have hps₁ : Chain h₁ prev ps := hps.hset_of_notMem hanotps _
        have hchain₁ : Chain h₁ (some a) ((a, d) :: ps) := Chain.cons hget₁ hps₁
        have hdisj₁ : ∀ x ∈ cs.map Prod.fst, x ∉ ((a, d) :: ps).map Prod.fst := by
          intro x hx
          simp only [List.map_cons, List.mem_cons, not_or]
          constructor
          · intro he
            rw [he] at hx
            exact hnodup hx
          · exact hdisj x (by simp [hx])
        have hf' : cs.length ≤ fuel := by
          simp only [List.length_cons] at hf
          omega
        obtain ⟨h₂, hrun, hch, hkeq, hdeq⟩ :=
          ih h₁ (some a) nx ((a, d) :: ps) fuel hcs₁ hchain₁ hdisj₁ hf'
        have hassoc : cs.reverse ++ (a, d) :: ps = ((a, d) :: cs).reverse ++ ps := by
          simp
        refine ⟨h₂, ?_, ?_, ?_, ?_⟩
        · simp only [revAux, ha]
          rw [hrun, hassoc]
        · rw [← hassoc]
          exact hch
        · rw [hkeq, hh₁, hkeys_hset]
        · intro b
          rw [hdeq b]
          by_cases hb : a = b
          · subst hb
            rw [hget₁, ha]
            rfl
          · rw [hh₁, hget_hset_ne _ hb]

/-- Corollary of `revAux_spec` for the full call `rev`: reversing a chain
`l` with fuel at least its length yields the head of `l.reverse`, whose
chain in the final heap is `l.reverse`, with addresses and payloads
untouched. -/
theorem rev_chain {h : Heap} {head : Option Nat} {l : List (Nat × Int)} {fuel : Nat}
    (hc : Chain h head l) (hf : l.length ≤ fuel) :
    ∃ h₂, rev h head fuel = some (h₂, chainHead l.reverse) ∧
      Chain h₂ (chainHead l.reverse) l.reverse ∧
      hkeys h₂ = hkeys h ∧
      (∀ a, (hget h₂ a).map Node.data = (hget h a).map Node.data) := by
  obtain ⟨h₂, hrun, hch, hkeq, hdeq⟩ :=
    revAux_spec l h none head [] fuel hc Chain.nil (by simp) hf
  rw [List.append_nil] at hrun hch
  exact ⟨h₂, hrun, hch, hkeq, hdeq⟩

/-! ## Construction -/

/-- The heap built by `construct` carries the expected chain: node `i`
lives at address `i` and holds the `i`-th value. -/
theorem constructAux_chain (vals : List Int) :
    ∀ base, Chain (constructAux base vals)
      (if vals.isEmpty then none else some base)
      ((List.range' base vals.length).zip vals) := by
  induction vals with
  | nil => intro base; exact Chain.nil
  | cons v vs ih =>
    intro base
    rw [List.length_cons, List.range'_succ, List.zip_cons_cons]
    simp only [List.isEmpty_cons, Bool.false_eq_true, if_false]
    refine @Chain.cons _ base v (if vs.isEmpty then none else some (base + 1))
      ((List.range' (base + 1) vs.length).zip vs) ?_ ?_
    · simp [constructAux, hget]
    · have hfresh : base ∉ ((List.range' (base + 1) vs.length).zip vs).map Prod.fst := by
        intro hmem
        have hsub := List.map_fst_zip (List.range' (base + 1) vs.length) vs
          (by rw [List.length_range'])
        rw [hsub] at hmem
        rw [List.mem_range'_1] at hmem
        omega
      exact (ih (base + 1)).cons_heap hfresh _

theorem construct_chain (vals : List Int) :
    Chain (construct vals).1 (construct vals).2 ((List.range' 0 vals.length).zip vals) :=
  constructAux_chain vals 0

theorem construct_chain_snd (vals : List Int) :
    ((List.range' 0 vals.length).zip vals).map Prod.snd = vals :=
  List.map_snd_zip _ _ (by rw [List.length_range'])

/-! ## The loop invariant, step by step -/

/-- When `revIter` has run the loop to completion (`curr` has become
absent), `revAux` with any sufficient fuel reaches the same final state
and returns the final `prev`. -/
theorem revAux_of_revIter :
    ∀ (k : Nat) (h : Heap) (prev curr : Option Nat) (h₂ : Heap) (p₂ : Option Nat)
      (fuel : Nat),
    revIter h prev curr k = some (h₂, p₂, none) → k ≤ fuel →
    revAux h fuel prev curr = some (h₂, p₂) := by
  intro k
  induction k with
  | zero =>
    intro h prev curr h₂ p₂ fuel hit _
    simp only [revIter] at hit
    injection hit with he
    injection he with h1 h2
    injection h2 with h3 h4
    subst h1
    subst h3
    subst h4
    cases fuel <;> rfl
  | succ k ih =>
    intro h prev curr h₂ p₂ fuel hit hf
    cases curr with
    | none => simp [revIter] at hit
    | some a =>
      cases fuel with
      | zero => omega
      | succ fuel =>
        simp only [revIter] at hit
        cases hg : hget h a with
        | none => rw [hg] at hit; simp at hit
        | some n =>
          rw [hg] at hit
          simp only [revAux, hg]
          exact ih _ _ _ _ _ _ hit (by omega)

/-- The invariant of the `rev` loop, step-indexed: after `k` iterations
on a chain `cs` (with `ps` already reversed behind `prev`), the chain
reachable from `prev` is exactly `(cs.take k).reverse ++ ps` — the
reverse of the processed prefix — and the chain reachable from `curr` is
the unprocessed suffix `cs.drop k`; addresses and payloads are untouched. -/
theorem revIter_spec :
    ∀ (k : Nat) (cs : List (Nat × Int)) (h : Heap) (prev curr : Option Nat)
      (ps : List (Nat × Int)),
    Chain h curr cs → Chain h prev ps →
    (∀ x ∈ cs.map Prod.fst, x ∉ ps.map Prod.fst) →
    k ≤ cs.length →
    ∃ h₂, revIter h prev curr k =
        some (h₂, chainHead ((cs.take k).reverse ++ ps), chainHead (cs.drop k)) ∧
      Chain h₂ (chainHead ((cs.take k).reverse ++ ps)) ((cs.take k).reverse ++ ps) ∧
      Chain h₂ (chainHead (cs.drop k)) (cs.drop k) ∧
      hkeys h₂ = hkeys h ∧
      (∀ a, (hget h₂ a).map Node.data = (hget h a).map Node.data) := by
  intro k
  induction k with
  | zero =>
    intro cs h prev curr ps hcs hps _ _
    refine ⟨h, ?_, ?_, ?_, rfl, fun a => rfl⟩
    · simp only [List.take_zero, List.reverse_nil, List.nil_append, List.drop_zero,
        ← hps.head_eq, ← hcs.head_eq]
      cases curr <;> rfl
    · simpa only [List.take_zero, List.reverse_nil, List.nil_append] using hps.head_chain
    · simpa only [List.drop_zero] using hcs.head_chain
  | succ k ih =>
    intro cs h prev curr ps hcs hps hdisj hk
    cases hcs with
    | nil => simp at hk
    | @cons a d nx cs' ha hcs' =>
      have hnodup : a ∉ cs'.map Prod.fst := by
        have := (Chain.cons ha hcs').nodup
        simp only [List.map_cons, List.nodup_cons] at this
        exact this.1
      have hanotps : a ∉ ps.map Prod.fst := by
        apply hdisj
        simp
      set h₁ := hset h a ⟨d, prev⟩ with hh₁
      have hcs₁ : Chain h₁ nx cs' := hcs'.hset_of_notMem hnodup _
      have hget₁ : hget h₁ a = some ⟨d, prev⟩ := hget_hset_self _ ha
      have hps₁ : Chain h₁ prev ps := hps.hset_of_notMem hanotps _
      have hchain₁ : Chain h₁ (some a) ((a, d) :: ps) := Chain.cons hget₁ hps₁
      have hdisj₁ : ∀ x ∈ cs'.map Prod.fst, x ∉ ((a, d) :: ps).map Prod.fst := by
        intro x hx
        simp only [List.map_cons, List.mem_cons, not_or]
        refine ⟨fun he => ?_, hdisj x (by simp [hx])⟩
        rw [he] at hx
        exact hnodup hx
      have hk' : k ≤ cs'.length := by
        simp only [List.length_cons] at hk
        omega
      obtain ⟨h₂, hit, hrev, hrem, hkeq, hdeq⟩ :=
        ih cs' h₁ (some a) nx ((a, d) :: ps) hcs₁ hchain₁ hdisj₁ hk'
      have htake : ((a, d) :: cs').take (k + 1) = (a, d) :: cs'.take k := rfl
      have hassoc : (cs'.take k).reverse ++ (a, d) :: ps =
          (((a, d) :: cs').take (k + 1)).reverse ++ ps := by
        rw [htake]
        simp
      refine ⟨h₂, ?_, ?_, ?_, ?_, ?_⟩
      · simp only [revIter, ha]
        rw [hit, hassoc]
        rfl
      · rw [← hassoc]
        exact hrev
      · simpa only [List.drop_succ_cons] using hrem
      · rw [hkeq, hh₁, hkeys_hset]
      · intro b
        rw [hdeq b]
        by_cases hb : a = b
        · subst hb
          rw [hget₁, ha]
          rfl
        · rw [hh₁, hget_hset_ne _ hb]

/-- Reversing and then traversing the constructed list for any sequence. -/
theorem rev_traverse_construct (S : List Int) :
    ∃ h₂ hd, rev (construct S).1 (construct S).2 S.length = some (h₂, hd) ∧
      traverse h₂ hd S.length = some (h₂, S.reverse) := by
  have hc := construct_chain S
  have hlen : ((List.range' 0 S.length).zip S).length = S.length := by
    rw [List.length_zip, List.length_range']
    exact min_self _
  obtain ⟨h₂, hrun, hch, _, _⟩ := rev_chain hc (le_of_eq hlen)
  refine ⟨h₂, _, hrun, ?_⟩
  have ht := traverseAux_spec hch (by rw [List.length_reverse, hlen])
  rw [List.map_reverse, construct_chain_snd] at ht
  exact ht

/-- The example heap of the repository:
`head = Node(10); head.next = Node(20); head.next.next = Node(30)`. -/
def exampleHeap : Heap :=
  [(0, ⟨10, some 1⟩), (1, ⟨20, some 2⟩), (2, ⟨30, none⟩)]

theorem exampleHeap_chain :
    Chain exampleHeap (some 0) [(0, 10), (1, 20), (2, 30)] :=
  Chain.cons rfl (Chain.cons rfl (Chain.cons rfl Chain.nil))

/-! ## Claims about traversal and reversal -/

/-- Claim C1: for every finite sequence `S`, traversing the list obtained
by reversing the list constructed from `S` yields exactly the reverse of
`S`; in particular, constructing from `[10, 20, 30]` and reversing yields
the sequence `[30, 20, 10]`. -/
theorem claim_C1_traverse_rev_construct :
    (∀ S : List Int,
      ∃ h₂ hd, rev (construct S).1 (construct S).2 S.length = some (h₂, hd) ∧
        traverse h₂ hd S.length = some (h₂, S.reverse)) ∧
    (∃ h₂ hd,
      rev (construct [10, 20, 30]).1 (construct [10, 20, 30]).2 3 = some (h₂, hd) ∧
        traverse h₂ hd 3 = some (h₂, [30, 20, 10])) := by
  refine ⟨rev_traverse_construct, ?_⟩
  obtain ⟨h₂, hd, h1, h2⟩ := rev_traverse_construct [10, 20, 30]
  exact ⟨h₂, hd, h1, h2⟩

/-- Claim C2: for every finite sequence `S` of values (including the empty
sequence), traversing the list constructed from `S` yields exactly the
elements of `S` in their original order (and leaves the heap unchanged). -/
theorem claim_C2_traverse_construct :
    ∀ S : List Int,
      traverse (construct S).1 (construct S).2 S.length = some ((construct S).1, S) := by
  intro S
  have hc := construct_chain S
  have hlen : ((List.range' 0 S.length).zip S).length = S.length := by
    rw [List.length_zip, List.length_range']
    exact min_self _
  have ht := traverseAux_spec hc (le_of_eq hlen)
  rw [construct_chain_snd] at ht
  exact ht

/-- Claim C3: reversal is an involution: for every finite acyclic list,
reversing twice and then traversing yields the same payload sequence as
traversing the original list. -/
theorem claim_C3_involution {h : Heap} {head : Option Nat} {l : List (Nat × Int)}
    {fuel : Nat} (hc : Chain h head l) (hf : l.length ≤ fuel) :
    ∃ h₁ hd₁ h₂ hd₂,
      rev h head fuel = some (h₁, hd₁) ∧
      rev h₁ hd₁ fuel = some (h₂, hd₂) ∧
      traverse h₂ hd₂ fuel = some (h₂, l.map Prod.snd) ∧
      traverse h head fuel = some (h, l.map Prod.snd) := by
  obtain ⟨h₁, hrun₁, hch₁, _, _⟩ := rev_chain hc hf
  obtain ⟨h₂, hrun₂, hch₂, _, _⟩ :=
    @rev_chain h₁ (chainHead l.reverse) l.reverse fuel hch₁
      (by rw [List.length_reverse]; exact hf)
  rw [List.reverse_reverse] at hch₂ hrun₂
  have ht₂ := traverseAux_spec hch₂ hf
  have ht₀ := traverseAux_spec hc hf
  exact ⟨h₁, chainHead l.reverse, h₂, chainHead l, hrun₁, hrun₂, ht₂, ht₀⟩

theorem claim_C3_witness :
    ∃ h₁ hd₁ h₂ hd₂,
      rev exampleHeap (some 0) 3 = some (h₁, hd₁) ∧
      rev h₁ hd₁ 3 = some (h₂, hd₂) ∧
      traverse h₂ hd₂ 3 = some (h₂, [10, 20, 30]) ∧
      traverse exampleHeap (some 0) 3 = some (exampleHeap, [10, 20, 30]) :=
  claim_C3_involution exampleHeap_chain (by decide)

/-- Claim C4: at every iteration of the `rev` loop, the sub-chain
reachable from `prev` is exactly the reverse of the prefix of the
original list processed so far, acyclic (no duplicate address) and
finite; and on loop exit (`curr` absent, after exactly `l.length`
iterations) the final `prev` is returned by `rev` as the new head. -/
theorem claim_C4_loop_invariant {h : Heap} {head : Option Nat} {l : List (Nat × Int)}
    (hc : Chain h head l) :
    (∀ k, k ≤ l.length →
      ∃ hk, revIter h none head k =
          some (hk, chainHead (l.take k).reverse, chainHead (l.drop k)) ∧
        Chain hk (chainHead (l.take k).reverse) (l.take k).reverse ∧
        ((l.take k).reverse.map Prod.fst).Nodup ∧
        Chain hk (chainHead (l.drop k)) (l.drop k)) ∧
    (∀ fuel, l.length ≤ fuel →
      ∃ hfin, revIter h none head l.length = some (hfin, chainHead l.reverse, none) ∧
        rev h head fuel = some (hfin, chainHead l.reverse)) := by
  constructor
  · intro k hk
    obtain ⟨hk₂, hit, hrev, hrem, _, _⟩ :=
      revIter_spec k l h none head [] hc Chain.nil (by simp) hk
    rw [List.append_nil] at hit hrev
    exact ⟨hk₂, hit, hrev, hrev.nodup, hrem⟩
  · intro fuel hfuel
    obtain ⟨hfin, hit, hrev, _, _, _⟩ :=
      revIter_spec l.length l h none head [] hc Chain.nil (by simp) (le_refl _)
    rw [List.append_nil, List.take_length, List.drop_length] at hit
    refine ⟨hfin, ?_, ?_⟩
    · simpa using hit
    · exact revAux_of_revIter l.length h none head hfin _ fuel (by simpa using hit) hfuel

theorem claim_C4_witness :
    (∃ hk, revIter exampleHeap none (some 0) 2 = some (hk, some 1, some 2) ∧
      Chain hk (some 1) [(1, 20), (0, 10)] ∧
      (([(1, 20), (0, 10)] : List (Nat × Int)).map Prod.fst).Nodup ∧
      Chain hk (some 2) [(2, 30)]) ∧
    (∃ hfin, revIter exampleHeap none (some 0) 3 = some (hfin, some 2, none) ∧
      rev exampleHeap (some 0) 3 = some (hfin, some 2)) :=
  ⟨(claim_C4_loop_invariant exampleHeap_chain).1 2 (by decide),
   (claim_C4_loop_invariant exampleHeap_chain).2 3 (by decide)⟩

/-- Claim C5: `rev` changes only the `next` links: for every finite
acyclic list, every node's `data` payload is unchanged, the allocated
addresses (node identities) of the heap are unchanged — no allocation —
and the addresses making up the list are the same ones, merely reordered. -/
theorem claim_C5_frame {h : Heap} {head : Option Nat} {l : List (Nat × Int)}
    {fuel : Nat} (hc : Chain h head l) (hf : l.length ≤ fuel) :
    ∃ h₂, rev h head fuel = some (h₂, chainHead l.reverse) ∧
      (∀ a, (hget h₂ a).map Node.data = (hget h a).map Node.data) ∧
      hkeys h₂ = hkeys h ∧
      Chain h₂ (chainHead l.reverse) l.reverse ∧
      (l.reverse.map Prod.fst).Perm (l.map Prod.fst) := by
  obtain ⟨h₂, hrun, hch, hkeq, hdeq⟩ := rev_chain hc hf
  refine ⟨h₂, hrun, hdeq, hkeq, hch, ?_⟩
  rw [List.map_reverse]
  exact List.reverse_perm _

theorem claim_C5_witness :
    ∃ h₂, rev exampleHeap (some 0) 3 = some (h₂, some 2) ∧
      (∀ a, (hget h₂ a).map Node.data = (hget exampleHeap a).map Node.data) ∧
      hkeys h₂ = hkeys exampleHeap ∧
      Chain h₂ (some 2) [(2, 30), (1, 20), (0, 10)] ∧
      (([(2, 30), (1, 20), (0, 10)] : List (Nat × Int)).map Prod.fst).Perm
        (([(0, 10), (1, 20), (2, 30)] : List (Nat × Int)).map Prod.fst) :=
  claim_C5_frame exampleHeap_chain (by decide)

/-- Claim C6: `traverse` performs no mutation (the heap it returns is the
one it was given), visits every node exactly once in chain order (the
emitted payloads are the chain's payloads in order, over pairwise
distinct addresses), and is restartable: a second call on the same head
yields the identical result. -/
theorem claim_C6_traverse_pure {h : Heap} {head : Option Nat} {l : List (Nat × Int)}
    {fuel : Nat} (hc : Chain h head l) (hf : l.length ≤ fuel) :
    traverse h head fuel = some (h, l.map Prod.snd) ∧
    (l.map Prod.fst).Nodup ∧
    (∀ h' out, traverse h head fuel = some (h', out) →
      h' = h ∧ traverse h' head fuel = some (h', out)) := by
  have ht := traverseAux_spec hc hf
  refine ⟨ht, hc.nodup, ?_⟩
  intro h' out hcall
  have : traverse h head fuel = some (h, l.map Prod.snd) := ht
  rw [this] at hcall
  injection hcall with he
  injection he with he₁ he₂
  subst he₁
  subst he₂
  exact ⟨rfl, this⟩

theorem claim_C6_witness :
    traverse exampleHeap (some 0) 3 = some (exampleHeap, [10, 20, 30]) ∧
    (([(0, 10), (1, 20), (2, 30)] : List (Nat × Int)).map Prod.fst).Nodup ∧
    (∀ h' out, traverse exampleHeap (some 0) 3 = some (h', out) →
      h' = exampleHeap ∧ traverse h' (some 0) 3 = some (h', out)) :=
  claim_C6_traverse_pure exampleHeap_chain (by decide)

/-- Claim C7: under the precondition that the chain is finite and acyclic
(`Chain h head l`), both `traverse` and `rev` terminate within a number
of loop iterations equal to the number of nodes: fuel `l.length` already
yields a result. -/
theorem claim_C7_termination {h : Heap} {head : Option Nat} {l : List (Nat × Int)}
    (hc : Chain h head l) :
    (∃ out, traverse h head l.length = some (h, out)) ∧
    (∃ h₂ hd, rev h head l.length = some (h₂, hd)) := by
  refine ⟨⟨l.map Prod.snd, traverseAux_spec hc (le_refl _)⟩, ?_⟩
  obtain ⟨h₂, hrun, _, _, _⟩ := rev_chain hc (le_refl l.length)
  exact ⟨h₂, chainHead l.reverse, hrun⟩

theorem claim_C7_witness :
    (∃ out, traverse exampleHeap (some 0) 3 = some (exampleHeap, out)) ∧
    (∃ h₂ hd, rev exampleHeap (some 0) 3 = some (h₂, hd)) :=
  claim_C7_termination exampleHeap_chain

/-- Claim C8: `rev` on an empty list (absent head) returns an absent head
and an unchanged heap, whatever the fuel; and `rev` on a one-element list
returns that same node (same address) as head, with its `next` still
absent, its payload unchanged, and no allocation. -/
theorem claim_C8_edge_cases :
    (∀ (h : Heap) (fuel : Nat), rev h none fuel = some (h, none)) ∧
    (∀ (h : Heap) (a : Nat) (d : Int), hget h a = some ⟨d, none⟩ →
      ∃ h₂, rev h (some a) 1 = some (h₂, some a) ∧
        hget h₂ a = some ⟨d, none⟩ ∧ hkeys h₂ = hkeys h) := by
  constructor
  · intro h fuel
    cases fuel <;> rfl
  · intro h a d hg
    refine ⟨hset h a ⟨d, none⟩, ?_, hget_hset_self _ hg, hkeys_hset h a _⟩
    simp [rev, revAux, hg]

theorem claim_C8_witness :
    rev [] none 7 = some ([], none) ∧
    (∃ h₂, rev [(5, ⟨42, none⟩)] (some 5) 1 = some (h₂, some 5) ∧
      hget h₂ 5 = some ⟨42, none⟩ ∧ hkeys h₂ = hkeys [(5, ⟨42, none⟩)]) :=
  ⟨claim_C8_edge_cases.1 [] 7, claim_C8_edge_cases.2 [(5, ⟨42, none⟩)] 5 42 rfl⟩

/-! ## `flatten_list` (src/python_prep/flatten_list.py) -/

/-- A Python value as far as `flatten_list` inspects it: integers and
strings are atoms, lists and tuples are the containers recognised by
`isinstance(i, (list, tuple))`. -/
inductive PyVal where
  | int : Int → PyVal
  | str : String → PyVal
  | list : List PyVal → PyVal
  | tuple : List PyVal → PyVal

/-- The test `isinstance(i, (list, tuple))`.  A string is neither. -/
def isListOrTuple : PyVal → Bool
  | .list _ => true
  | .tuple _ => true
  | _ => false

/--
`flatten_list` from `flatten_list.py`:

    def flatten_list(li):
        result = []
        for i in li:
            if isinstance(i, (list, tuple)):
                result.extend(flatten_list(i))
            else:
                result.append(i)
        return result

Elements for which the `isinstance` test succeeds are recursed into;
everything else (strings included) is appended whole.
-/
def flatten_list : List PyVal → List PyVal
  | [] => []
  | PyVal.list l :: rest => flatten_list l ++ flatten_list rest
  | PyVal.tuple l :: rest => flatten_list l ++ flatten_list rest
  | i :: rest => i :: flatten_list rest

mutual

/-- Written from the claim's words, for comparison with `flatten_list`:
the atomic leaves of one value, depth-first. -/
def leaves : PyVal → List PyVal
  | PyVal.list l => leavesForest l
  | PyVal.tuple l => leavesForest l
  | a => [a]

/-- Written from the claim's words, for comparison with `flatten_list`:
the atomic leaves of a sequence of values in depth-first, left-to-right
order. -/
def leavesForest : List PyVal → List PyVal
  | [] => []
  | i :: rest => leaves i ++ leavesForest rest

end

theorem flatten_list_eq_leavesForest (li : List PyVal) :
    flatten_list li = leavesForest li := by
  induction li using flatten_list.induct with
  | case1 => simp [flatten_list, leavesForest]
  | case2 l rest ihl ihr => simp [flatten_list, leavesForest, leaves, ihl, ihr]
  | case3 l rest ihl ihr => simp [flatten_list, leavesForest, leaves, ihl, ihr]
  | case4 i rest h1 h2 ihr =>
    cases i with
    | int n => simp [flatten_list, leavesForest, leaves, ihr]
    | str s => simp [flatten_list, leavesForest, leaves, ihr]
    | list l => exact absurd rfl (h1 l)
    | tuple l => exact absurd rfl (h2 l)

theorem flatten_list_atoms (li : List PyVal) :
    ∀ x ∈ flatten_list li, isListOrTuple x = false := by
  induction li using flatten_list.induct with
  | case1 => simp [flatten_list]
  | case2 l rest ihl ihr =>
    intro x hx
    rw [show flatten_list (PyVal.list l :: rest) = flatten_list l ++ flatten_list rest
      from by simp [flatten_list]] at hx
    rcases List.mem_append.mp hx with hm | hm
    · exact ihl x hm
    · exact ihr x hm
  | case3 l rest ihl ihr =>
    intro x hx
    rw [show flatten_list (PyVal.tuple l :: rest) = flatten_list l ++ flatten_list rest
      from by simp [flatten_list]] at hx
    rcases List.mem_append.mp hx with hm | hm
    · exact ihl x hm
    · exact ihr x hm
  | case4 i rest h1 h2 ihr =>
    intro x hx
    have hstep : flatten_list (i :: rest) = i :: flatten_list rest := by
      cases i with
      | int n => simp [flatten_list]
      | str s => simp [flatten_list]
      | list l => exact absurd rfl (h1 l)
      | tuple l => exact absurd rfl (h2 l)
    rw [hstep] at hx
    rcases List.mem_cons.mp hx with he | hm
    · subst he
      cases x with
      | int n => rfl
      | str s => rfl
      | list l => exact absurd rfl (h1 l)
      | tuple l => exact absurd rfl (h2 l)
    · exact ihr x hm

/-- Claim C9: `flatten_list` recurses only into elements that are lists
or tuples: a string — and any other non-list, non-tuple element — is
appended to the result whole, never split; and the result is exactly the
atomic leaves in depth-first, left-to-right order, every one of them a
non-list, non-tuple value. -/
theorem claim_C9_flatten :
    (∀ (s : String) (li : List PyVal),
      flatten_list (PyVal.str s :: li) = PyVal.str s :: flatten_list li) ∧
    (∀ (i : PyVal) (li : List PyVal), isListOrTuple i = false →
      flatten_list (i :: li) = i :: flatten_list li) ∧
    (∀ li : List PyVal, flatten_list li = leavesForest li) ∧
    (∀ (li : List PyVal) (x : PyVal), x ∈ flatten_list li → isListOrTuple x = false) := by
  refine ⟨?_, ?_, flatten_list_eq_leavesForest, flatten_list_atoms⟩
  · intro s li
    simp [flatten_list]
  · intro i li hi
    cases i with
    | int n => simp [flatten_list]
    | str s => simp [flatten_list]
    | list l => simp [isListOrTuple] at hi
    | tuple l => simp [isListOrTuple] at hi

theorem claim_C9_witness :
    flatten_list [PyVal.str "abc", PyVal.int 1] =
      PyVal.str "abc" :: flatten_list [PyVal.int 1] ∧
    flatten_list [PyVal.int 7] = PyVal.int 7 :: flatten_list [] ∧
    flatten_list [PyVal.int 1, PyVal.list [PyVal.int 2, PyVal.tuple [PyVal.int 3]],
        PyVal.str "xy"] =
      leavesForest [PyVal.int 1, PyVal.list [PyVal.int 2, PyVal.tuple [PyVal.int 3]],
        PyVal.str "xy"] ∧
    isListOrTuple (PyVal.int 1) = false :=
  ⟨claim_C9_flatten.1 "abc" [PyVal.int 1],
   claim_C9_flatten.2.1 (PyVal.int 7) [] rfl,
   claim_C9_flatten.2.2.1 _,
   claim_C9_flatten.2.2.2 [PyVal.int 1] (PyVal.int 1) (by simp [flatten_list])⟩

/-! ## `two_sum` (src/python_prep/practice.py) -/

/-- Lookup in the Python dict `seen` (value → index), modelled as an
association list.  Assignment prepends, so lookup finds the most recent
binding — observationally the dict's overwrite semantics. -/
def dget : List (Int × Nat) → Int → Option Nat
  | [], _ => none
  | (k, v) :: t, x => if k = x then some v else dget t x

/--
The loop of `two_sum` from `practice.py`:

    def two_sum(nums, target):
        seen = {}
        for i, num in enumerate(nums):
            diff = target - num
            if diff in seen:
                return [seen[diff], i]
            seen[num] = i

Falling off the end of the loop returns Python's implicit `None`.
-/
def two_sumAux : List (Int × Nat) → Int → Nat → List Int → Option (List Nat)
  | _, _, _, [] => none
  | seen, target, i, num :: rest =>
    match dget seen (target - num) with
    | some j => some [j, i]
    | none => two_sumAux ((num, i) :: seen) target (i + 1) rest

def two_sum (nums : List Int) (target : Int) : Option (List Nat) :=
  two_sumAux [] target 0 nums

/-- Index `j` "completes a pair": some earlier index holds the
complementary value. -/
def completes (nums : List Int) (target : Int) (j : Nat) : Prop :=
  j < nums.length ∧ ∃ i, i < j ∧ nums.getD i 0 + nums.getD j 0 = target

/-- The loop invariant of `two_sum`: walking the suffix `nums.drop i`
with `seen` holding exactly the values of the first `i` elements (mapped
to indices below `i`), given that no index below `i` completes a pair,
the loop returns `none` exactly when no index completes a pair at all,
and any returned `[a, b]` is a valid pair whose second index `b` is the
first index at which any pair completes. -/
theorem two_sumAux_spec (nums : List Int) (target : Int) :
    ∀ (rest : List Int) (i : Nat) (seen : List (Int × Nat)),
    rest = nums.drop i →
    (∀ v k, dget seen v = some k → k < i ∧ nums.getD k 0 = v) →
    (∀ m, m < i → (dget seen (nums.getD m 0)).isSome) →
    (∀ j, j < i → ¬ completes nums target j) →
    (two_sumAux seen target i rest = none → ∀ j, ¬ completes nums target j) ∧
    (∀ out, two_sumAux seen target i rest = some out →
      ∃ a b, out = [a, b] ∧ a < b ∧ b < nums.length ∧
        nums.getD a 0 + nums.getD b 0 = target ∧
        ∀ j, completes nums target j → b ≤ j) := by
  intro rest
  induction rest with
  | nil =>
    intro i seen hdrop _ _ hno
    have hilen : nums.length ≤ i := List.drop_eq_nil_iff.mp hdrop.symm
    constructor
    · intro _ j hcomp
      exact hno j (lt_of_lt_of_le hcomp.1 hilen) hcomp
    · intro out hout
      simp [two_sumAux] at hout
  | cons num rest' ih =>
    intro i seen hdrop hinv1 hinv2 hno
    have hlen : (num :: rest').length = nums.length - i := by
      rw [hdrop, List.length_drop]
    have hilt : i < nums.length := by
      simp only [List.length_cons] at hlen
      omega
    have hnum? : nums[i]? = some num := by
      have h0 : (nums.drop i)[0]? = nums[i + 0]? := List.getElem?_drop nums i 0
      rw [← hdrop] at h0
      simpa using h0.symm
    have hnum : nums.getD i 0 = num := by
      rw [List.getD_eq_getElem?_getD, hnum?]
      rfl
    have hrest' : rest' = nums.drop (i + 1) := by
      have ht : (nums.drop i).tail = nums.drop (i + 1) := List.tail_drop nums i
      rw [← hdrop] at ht
      simpa using ht
    cases hdg : dget seen (target - num) with
    | some j =>
      have hstep : two_sumAux seen target i (num :: rest') = some [j, i] := by
        simp [two_sumAux, hdg]
      obtain ⟨hji, hjv⟩ := hinv1 (target - num) j hdg
      constructor
      · intro hnone
        rw [hstep] at hnone
        exact absurd hnone (by simp)
      · intro out hout
        rw [hstep] at hout
        injection hout with he
        refine ⟨j, i, he.symm, hji, hilt, by rw [hjv, hnum]; ring, ?_⟩
        intro j' hcomp
        by_contra hlt
        exact hno j' (by omega) hcomp
    | none =>
      have hstep : two_sumAux seen target i (num :: rest') =
          two_sumAux ((num, i) :: seen) target (i + 1) rest' := by
        simp [two_sumAux, hdg]
      have hinv1' : ∀ v k, dget ((num, i) :: seen) v = some k →
          k < i + 1 ∧ nums.getD k 0 = v := by
        intro v k hk
        simp only [dget] at hk
        by_cases hv : num = v
        · rw [if_pos hv] at hk
          injection hk with he
          subst he
          exact ⟨Nat.lt_succ_self _, by rw [hnum, hv]⟩
        · rw [if_neg hv] at hk
          obtain ⟨h1, h2⟩ := hinv1 v k hk
          exact ⟨by omega, h2⟩
      have hinv2' : ∀ m, m < i + 1 → (dget ((num, i) :: seen) (nums.getD m 0)).isSome := by
        intro m hm
        simp only [dget]
        by_cases hv : num = nums.getD m 0
        · rw [if_pos hv]
          rfl
        · rw [if_neg hv]
          rcases Nat.lt_succ_iff_lt_or_eq.mp hm with hmi | hmi
          · exact hinv2 m hmi
          · subst hmi
            exact absurd hnum.symm hv
      have hno' : ∀ j, j < i + 1 → ¬ completes nums target j := by
        intro j hj hcomp
        rcases Nat.lt_succ_iff_lt_or_eq.mp hj with hji | hji
        · exact hno j hji hcomp
        · subst hji
          obtain ⟨_, m, hmj, hsum⟩ := hcomp
          have hmv : nums.getD m 0 = target - num := by
            rw [hnum] at hsum
            omega
          have := hinv2 m hmj
          rw [hmv, hdg] at this
          simp at this
      have := ih (i + 1) ((num, i) :: seen) hrest' hinv1' hinv2' hno'
      rw [hstep]
      exact this

/-- Claim C10: `two_sum` returns `none` exactly when no two distinct
indices `i < j` satisfy `nums[i] + nums[j] = target`; and whenever it
returns a pair `[a, b]`, then `a < b`, `nums[a] + nums[b] = target`, and
`b` is the smallest index at which any such pair completes. -/
theorem claim_C10_two_sum (nums : List Int) (target : Int) :
    (two_sum nums target = none ↔
      ¬ ∃ i j, i < j ∧ j < nums.length ∧ nums.getD i 0 + nums.getD j 0 = target) ∧
    (∀ out, two_sum nums target = some out →
      ∃ a b, out = [a, b] ∧ a < b ∧ b < nums.length ∧
        nums.getD a 0 + nums.getD b 0 = target ∧
        ∀ j, (∃ i, i < j ∧ j < nums.length ∧ nums.getD i 0 + nums.getD j 0 = target) →
          b ≤ j) := by
  have hspec := two_sumAux_spec nums target nums 0 []
    (by simp) (by intro v k hk; simp [dget] at hk) (by intro m hm; omega)
    (by intro j hj; omega)
  constructor
  · constructor
    · intro hnone ⟨i, j, hij, hjl, hsum⟩
      exact hspec.1 hnone j ⟨hjl, i, hij, hsum⟩
    · intro hno
      cases hopt : two_sum nums target with
      | none => rfl
      | some out =>
        obtain ⟨a, b, _, hab, hbl, hsum, _⟩ := hspec.2 out hopt
        exact absurd ⟨a, b, hab, hbl, hsum⟩ hno
  · intro out hout
    obtain ⟨a, b, heq, hab, hbl, hsum, hmin⟩ := hspec.2 out hout
    refine ⟨a, b, heq, hab, hbl, hsum, ?_⟩
    intro j ⟨i, hij, hjl, hsum'⟩
    exact hmin j ⟨hjl, i, hij, hsum'⟩

theorem claim_C10_witness :
    ∃ a b, ([2, 4] : List Nat) = [a, b] ∧ a < b ∧
      b < ([2, 3, 4, 5, 6, 7] : List Int).length ∧
      ([2, 3, 4, 5, 6, 7] : List Int).getD a 0 +
        ([2, 3, 4, 5, 6, 7] : List Int).getD b 0 = 10 ∧
      ∀ j, (∃ i, i < j ∧ j < ([2, 3, 4, 5, 6, 7] : List Int).length ∧
          ([2, 3, 4, 5, 6, 7] : List Int).getD i 0 +
            ([2, 3, 4, 5, 6, 7] : List Int).getD j 0 = 10) →
        b ≤ j :=
  (claim_C10_two_sum [2, 3, 4, 5, 6, 7] 10).2 [2, 4] (by rfl)

end PythonPrep
